import Mathlib

/-!
Verification of the HeatGuard core (src/app.py): heat-index computation,
risk classification, forecast row processing, safe-window merging and the
guidance engine.  Python floats are modelled as real numbers; Python ints
as integers.  Each definition mirrors one function or module-level block of
src/app.py, with the source lines noted in its doc comment.
-/

namespace HeatGuard

/-- The nine-constant Rothfusz regression polynomial, the value `HI` computed
at src/app.py lines 40-50 before the adjustment branches. -/
noncomputable def rothfusz (T_f RH : ℝ) : ℝ :=
  let c1 : ℝ := -42.379
  let c2 : ℝ := 2.04901523
  let c3 : ℝ := 10.14333127
  let c4 : ℝ := -0.22475541
  let c5 : ℝ := -0.00683783
  let c6 : ℝ := -0.05481717
  let c7 : ℝ := 0.00122874
  let c8 : ℝ := 0.00085282
  let c9 : ℝ := -0.00000199
  c1 + c2*T_f + c3*RH + c4*T_f*RH + c5*(T_f^2) + c6*(RH^2)
    + c7*(T_f^2)*RH + c8*T_f*(RH^2) + c9*(T_f^2)*(RH^2)

/-- Argument of the square root in the low-humidity adjustment of
`heat_index_f` (src/app.py line 53): `(17 - abs(T_f - 95)) / 17`. -/
noncomputable def sqrtArg (T_f : ℝ) : ℝ := (17 - |T_f - 95|) / 17

/-- `heat_index_f` (src/app.py lines 39-58): the Rothfusz polynomial followed
by the `if` / `elif` adjustment chain, with no input validation. -/
noncomputable def heat_index_f (T_f RH : ℝ) : ℝ :=
  let HI := rothfusz T_f RH
  if RH < 13 ∧ 80 ≤ T_f ∧ T_f ≤ 112 then
    HI - ((13 - RH) / 4) * Real.sqrt (sqrtArg T_f)
  else if RH > 85 ∧ 80 ≤ T_f ∧ T_f ≤ 87 then
    HI + ((RH - 85) / 10) * ((87 - T_f) / 5)
  else HI

/-- Heat index as the spec words it (§4.1): the polynomial with the fixed
constants written out, minus the low-humidity correction under its guard,
plus the high-humidity correction under its guard, the two guards being
mutually exclusive. -/
noncomputable def computeHeatIndexSpec (T RH : ℝ) : ℝ :=
  (-42.379) + 2.04901523*T + 10.14333127*RH + (-0.22475541)*T*RH
    + (-0.00683783)*T^2 + (-0.05481717)*RH^2 + 0.00122874*T^2*RH
    + 0.00085282*T*RH^2 + (-0.00000199)*T^2*RH^2
  - (if RH < 13 ∧ 80 ≤ T ∧ T ≤ 112 then
      ((13 - RH) / 4) * Real.sqrt ((17 - |T - 95|) / 17) else 0)
  + (if RH > 85 ∧ 80 ≤ T ∧ T ≤ 87 then
      ((RH - 85) / 10) * ((87 - T) / 5) else 0)

/-- Risk categories, ordered Low < Moderate < High < Extreme. -/
inductive RiskCategory : Type
  | Low
  | Moderate
  | High
  | Extreme
deriving DecidableEq, Inhabited

/-- Position of a category in the order Low < Moderate < High < Extreme. -/
def RiskCategory.ord : RiskCategory → ℕ
  | .Low => 0
  | .Moderate => 1
  | .High => 2
  | .Extreme => 3

/-- `risk_from_hi` (src/app.py lines 60-64): thresholds checked highest
first, returning the category together with its emoji. -/
noncomputable def risk_from_hi (hi_f : ℝ) : RiskCategory × String :=
  if hi_f ≥ 125 then (.Extreme, "🔴")
  else if hi_f ≥ 104 then (.High, "🟠")
  else if hi_f ≥ 90 then (.Moderate, "🟡")
  else (.Low, "🟢")

/-- C1: for every temperature and relative humidity, `heat_index_f` equals
the NOAA Rothfusz polynomial with the fixed constants c1..c9, minus the
low-humidity correction exactly when RH < 13 and 80 ≤ T ≤ 112, plus the
high-humidity correction exactly when RH > 85 and 80 ≤ T ≤ 87 (the guards
are mutually exclusive), with no input validation and no other
adjustment. -/
theorem heat_index_matches_spec (T RH : ℝ) :
    heat_index_f T RH = computeHeatIndexSpec T RH := by
  simp only [heat_index_f, computeHeatIndexSpec, rothfusz, sqrtArg]
  split_ifs with h1 h2
  · exact absurd h1.1 (by linarith [h2.1])
  · ring
  · ring
  · ring

/-- C6 (amended): for 80 ≤ T < 112 and RH < 13 the low-humidity adjustment
is strictly positive, so the returned heat index is strictly below the bare
Rothfusz polynomial; at T = 112 the square-root factor vanishes and the two
coincide. -/
theorem heat_index_low_humidity_strict (T RH : ℝ)
    (hRH : RH < 13) (hlo : 80 ≤ T) (hhi : T < 112) :
    heat_index_f T RH < rothfusz T RH := by
  have hT : T ≤ 112 := le_of_lt hhi
  simp only [heat_index_f]
  rw [if_pos ⟨hRH, hlo, hT⟩]
  have habs : |T - 95| < 17 := abs_lt.mpr ⟨by linarith, by linarith⟩
  have hs : 0 < Real.sqrt (sqrtArg T) := by
    apply Real.sqrt_pos.mpr
    unfold sqrtArg
    exact div_pos (by linarith) (by norm_num)
  have hc : 0 < (13 - RH) / 4 := by linarith
  have := mul_pos hc hs
  linarith

/-- C6 witness: the strict decrease at T = 95, RH = 5. -/
theorem heat_index_low_humidity_strict_witness :
    (5:ℝ) < 13 ∧ (80:ℝ) ≤ 95 ∧ (95:ℝ) < 112 ∧
      heat_index_f 95 5 < rothfusz 95 5 :=
  ⟨by norm_num, by norm_num, by norm_num,
    heat_index_low_humidity_strict 95 5 (by norm_num) (by norm_num) (by norm_num)⟩

/-- C6 counterexample: at T = 112, RH = 0 the guard RH < 13 and
80 ≤ T ≤ 112 holds, yet the adjustment is `(13/4) * sqrt 0 = 0`, so the
returned value is not strictly below the polynomial. -/
theorem heat_index_low_humidity_cex :
    (0:ℝ) < 13 ∧ (80:ℝ) ≤ 112 ∧ (112:ℝ) ≤ 112 ∧
      ¬ heat_index_f 112 0 < rothfusz 112 0 := by
  refine ⟨by norm_num, by norm_num, by norm_num, ?_⟩
  have habs : |(112:ℝ) - 95| = 17 := by
    rw [abs_of_nonneg] <;> norm_num
  have harg : sqrtArg 112 = 0 := by
    unfold sqrtArg
    rw [habs]
    norm_num
  have h : heat_index_f 112 0 = rothfusz 112 0 := by
    simp only [heat_index_f]
    rw [if_pos (by norm_num), harg, Real.sqrt_zero]
    ring
  rw [h]
  exact lt_irrefl _

/-- C10: `heat_index_f` is total, and the square root in its low-humidity
branch is only taken under the guard RH < 13 and 80 ≤ T ≤ 112, under which
its argument `(17 - abs(T - 95)) / 17` is nonnegative, so no math domain
error can arise. -/
theorem heat_index_sqrt_arg_nonneg (T RH : ℝ)
    (hRH : RH < 13) (hlo : 80 ≤ T) (hhi : T ≤ 112) :
    0 ≤ sqrtArg T ∧
      heat_index_f T RH =
        rothfusz T RH - ((13 - RH) / 4) * Real.sqrt (sqrtArg T) := by
  constructor
  · have habs : |T - 95| ≤ 17 := abs_le.mpr ⟨by linarith, by linarith⟩
    unfold sqrtArg
    apply div_nonneg (by linarith) (by norm_num)
  · simp only [heat_index_f]
    rw [if_pos ⟨hRH, hlo, hhi⟩]

/-- C10 witness: the guard and the nonnegative square-root argument at
T = 95, RH = 5. -/
theorem heat_index_sqrt_arg_nonneg_witness :
    (5:ℝ) < 13 ∧ (80:ℝ) ≤ 95 ∧ (95:ℝ) ≤ 112 ∧
      (0 ≤ sqrtArg 95 ∧
        heat_index_f 95 5 =
          rothfusz 95 5 - ((13 - 5) / 4) * Real.sqrt (sqrtArg 95)) :=
  ⟨by norm_num, by norm_num, by norm_num,
    heat_index_sqrt_arg_nonneg 95 5 (by norm_num) (by norm_num) (by norm_num)⟩

/-- C5: `risk_from_hi` realizes the fixed thresholds, highest first
(≥ 125 Extreme, ≥ 104 High, ≥ 90 Moderate, otherwise Low), and is monotone:
a strictly smaller heat index never maps to a strictly larger category in
the order Low < Moderate < High < Extreme. -/
theorem risk_from_hi_spec :
    (∀ hi_f : ℝ, 125 ≤ hi_f → (risk_from_hi hi_f).1 = RiskCategory.Extreme) ∧
    (∀ hi_f : ℝ, 104 ≤ hi_f → hi_f < 125 → (risk_from_hi hi_f).1 = RiskCategory.High) ∧
    (∀ hi_f : ℝ, 90 ≤ hi_f → hi_f < 104 → (risk_from_hi hi_f).1 = RiskCategory.Moderate) ∧
    (∀ hi_f : ℝ, hi_f < 90 → (risk_from_hi hi_f).1 = RiskCategory.Low) ∧
    (∀ h1 h2 : ℝ, h1 < h2 →
      ((risk_from_hi h1).1).ord ≤ ((risk_from_hi h2).1).ord) := by
  refine ⟨?_, ?_, ?_, ?_, ?_⟩
  · intro hi h
    simp only [risk_from_hi]
    rw [if_pos h]
  · intro hi h h'
    simp only [risk_from_hi]
    rw [if_neg (by linarith), if_pos h]
  · intro hi h h'
    simp only [risk_from_hi]
    rw [if_neg (by linarith), if_neg (by linarith), if_pos h]
  · intro hi h
    simp only [risk_from_hi]
    rw [if_neg (by linarith), if_neg (by linarith), if_neg (by linarith)]
  · intro a b hab
    simp only [risk_from_hi]
    split_ifs <;> simp only [RiskCategory.ord] <;> first | omega | linarith

/-- One hourly record as the forecast provider supplies it: `dt` (unix
seconds), `temp` (°F), `humidity` (%), `uvi`. -/
structure HourlyReading where
  dt : ℤ
  temp : ℝ
  humidity : ℝ
  uvi : ℝ

/-- One annotated forecast row as built at src/app.py lines 205-214.  The
strftime hour label (`fmt_hour`) is locale string formatting and is left
out of the embedding; every other field is kept. -/
structure Row where
  ts : ℤ
  temp_f : ℝ
  rh : ℝ
  uvi : ℝ
  hi_f : ℝ
  risk : RiskCategory
  emoji : String
deriving Inhabited

/-- One iteration of the forecast row loop (src/app.py lines 196-214):
heat index via `heat_index_f`, the +3 °F UV bump when `uvi >= 8`, then
classification via `risk_from_hi`. -/
noncomputable def annotateReading (h : HourlyReading) : Row :=
  let HI0 := heat_index_f h.temp h.humidity
  let HI := if h.uvi ≥ 8 then HI0 + 3.0 else HI0
  { ts := h.dt, temp_f := h.temp, rh := h.humidity, uvi := h.uvi,
    hi_f := HI, risk := (risk_from_hi HI).1, emoji := (risk_from_hi HI).2 }

/-- Python's `max(rows, key=lambda r: r["hi_f"])` (src/app.py line 217)
keeps the first maximum: the running best is replaced only on a strictly
larger key. -/
noncomputable def pickPeak (best r : Row) : Row :=
  if r.hi_f > best.hi_f then r else best

/-- The "no data" condition of src/app.py lines 190-192: an empty hourly
sequence is reported as an error instead of reaching the peak scan. -/
inductive NoDataError : Type
  | noData
deriving DecidableEq

/-- The forecast row processor: the empty-input guard (src/app.py line
191), the row loop (lines 195-214) and the peak scan (line 217). -/
noncomputable def processForecast :
    List HourlyReading → Except NoDataError (List Row × Row)
  | [] => .error .noData
  | h :: t =>
      let rows := (h :: t).map annotateReading
      .ok (rows, (t.map annotateReading).foldl pickPeak (annotateReading h))

/-- A left fold of `pickPeak` over `rs` starting from `b` returns the
element of `b :: rs` with the largest `hi_f`, ties broken by first
occurrence. -/
theorem foldl_pickPeak_first_argmax :
    ∀ (rs : List Row) (b : Row),
      ∃ i, i < (b :: rs).length ∧
        rs.foldl pickPeak b = (b :: rs).getD i default ∧
        (∀ j, j < (b :: rs).length →
          ((b :: rs).getD j default).hi_f ≤ ((b :: rs).getD i default).hi_f) ∧
        (∀ j, j < i →
          ((b :: rs).getD j default).hi_f < ((b :: rs).getD i default).hi_f) := by
  intro rs
  induction rs with
  | nil =>
    intro b
    refine ⟨0, by simp, by simp, ?_, ?_⟩
    · intro j hj
      have hj0 : j = 0 := by simpa using Nat.lt_one_iff.mp (by simpa using hj)
      subst hj0
      exact le_refl _
    · intro j hj
      exact absurd hj (Nat.not_lt_zero j)
  | cons r rs ih =>
    intro b
    by_cases hbr : r.hi_f > b.hi_f
    · have hpk : pickPeak b r = r := by simp [pickPeak, hbr]
      obtain ⟨i, hi, heq, hle, hlt⟩ := ih r
      refine ⟨i + 1, ?_, ?_, ?_, ?_⟩
      · simpa using Nat.succ_lt_succ (by simpa using hi)
      · rw [List.foldl_cons, hpk, List.getD_cons_succ]
        exact heq
      · intro j hj
        rw [List.getD_cons_succ]
        match j with
        | 0 =>
          rw [List.getD_cons_zero]
          have hr : r.hi_f ≤ ((r :: rs).getD i default).hi_f := by
            have := hle 0 (by simp)
            simpa using this
          exact le_of_lt (lt_of_lt_of_le hbr hr)
        | j + 1 =>
          rw [List.getD_cons_succ]
          exact hle j (by simpa using Nat.lt_of_succ_lt_succ (by simpa using hj))
      · intro j hj
        rw [List.getD_cons_succ]
        match j with
        | 0 =>
          rw [List.getD_cons_zero]
          have hr : r.hi_f ≤ ((r :: rs).getD i default).hi_f := by
            have := hle 0 (by simp)
            simpa using this
          exact lt_of_lt_of_le hbr hr
        | j + 1 =>
          rw [List.getD_cons_succ]
          exact hlt j (Nat.lt_of_succ_lt_succ hj)
    · have hpk : pickPeak b r = b := by simp [pickPeak, hbr]
      have hrb : r.hi_f ≤ b.hi_f := le_of_not_lt hbr
      obtain ⟨i, hi, heq, hle, hlt⟩ := ih b
      match i, hi, heq, hle, hlt with
      | 0, hi, heq, hle, hlt =>
        refine ⟨0, by simp, ?_, ?_, ?_⟩
        · rw [List.foldl_cons, hpk, List.getD_cons_zero]
          simpa using heq
        · intro j hj
          rw [List.getD_cons_zero]
          match j with
          | 0 => simp
          | 1 =>
            rw [List.getD_cons_succ, List.getD_cons_zero]
            exact hrb
          | j + 2 =>
            rw [List.getD_cons_succ, List.getD_cons_succ]
            have := hle (j + 1) (by simpa using Nat.lt_of_succ_lt_succ (by simpa using hj))
            simpa using this
        · intro j hj
          exact absurd hj (Nat.not_lt_zero j)
      | k + 1, hi, heq, hle, hlt =>
        have htop : ((b :: rs).getD (k + 1) default).hi_f = (rs.getD k default).hi_f := by
          rw [List.getD_cons_succ]
        refine ⟨k + 2, ?_, ?_, ?_, ?_⟩
        · have : k + 1 < rs.length + 1 := by simpa using hi
          simpa using Nat.succ_lt_succ this
        · rw [List.foldl_cons, hpk, List.getD_cons_succ, List.getD_cons_succ]
          rw [List.getD_cons_succ] at heq
          exact heq
        · intro j hj
          rw [List.getD_cons_succ, List.getD_cons_succ]
          match j with
          | 0 =>
            rw [List.getD_cons_zero]
            have := hle 0 (by simp)
            rw [List.getD_cons_zero, htop] at this
            exact this
          | 1 =>
            rw [List.getD_cons_succ, List.getD_cons_zero]
            have hb := hle 0 (by simp)
            rw [List.getD_cons_zero, htop] at hb
            exact le_trans hrb hb
          | j + 2 =>
            rw [List.getD_cons_succ, List.getD_cons_succ]
            have := hle (j + 1) (by simpa using Nat.lt_of_succ_lt_succ (by simpa using hj))
            rw [List.getD_cons_succ, htop] at this
            exact this
        · intro j hj
          rw [List.getD_cons_succ, List.getD_cons_succ]
          match j with
          | 0 =>
            rw [List.getD_cons_zero]
            have := hlt 0 (Nat.succ_pos k)
            rw [List.getD_cons_zero, htop] at this
            exact this
          | 1 =>
            rw [List.getD_cons_succ, List.getD_cons_zero]
            have hb := hlt 0 (Nat.succ_pos k)
            rw [List.getD_cons_zero, htop] at hb
            exact lt_of_le_of_lt hrb hb
          | j + 2 =>
            rw [List.getD_cons_succ, List.getD_cons_succ]
            have := hlt (j + 1) (by omega)
            rw [List.getD_cons_succ, htop] at this
            exact this

/-- C2: on a non-empty input, `processForecast` returns one annotated row
per reading in input order; each row's heat index is the Rothfusz value
plus exactly 3.0 °F when uvi ≥ 8 and nothing otherwise, its risk is the
classification of that bumped value, and the peak is the row with the
largest heat index, ties broken by first occurrence. -/
theorem processForecast_spec (hourly : List HourlyReading) (hne : hourly ≠ []) :
    ∃ rows peak, processForecast hourly = .ok (rows, peak) ∧
      rows = hourly.map annotateReading ∧
      (∀ h : HourlyReading,
          (annotateReading h).hi_f =
            heat_index_f h.temp h.humidity + (if h.uvi ≥ 8 then (3.0:ℝ) else 0) ∧
          (annotateReading h).risk = (risk_from_hi (annotateReading h).hi_f).1) ∧
      ∃ i, i < rows.length ∧ peak = rows.getD i default ∧
        (∀ j, j < rows.length →
          (rows.getD j default).hi_f ≤ (rows.getD i default).hi_f) ∧
        (∀ j, j < i →
          (rows.getD j default).hi_f < (rows.getD i default).hi_f) := by
  match hourly, hne with
  | h :: t, _ =>
    obtain ⟨i, hi, heq, hle, hlt⟩ :=
      foldl_pickPeak_first_argmax (t.map annotateReading) (annotateReading h)
    refine ⟨(h :: t).map annotateReading,
      (t.map annotateReading).foldl pickPeak (annotateReading h), rfl, rfl, ?_, ?_⟩
    · intro h'
      constructor
      · simp only [annotateReading]
        split_ifs <;> norm_num
      · rfl
    · exact ⟨i, by simpa using hi, by simpa using heq, by simpa using hle, by simpa using hlt⟩

/-- C2 witness: the single reading {temp = 100, humidity = 50, uvi = 9} of
§8 of the spec. -/
theorem processForecast_spec_witness :
    (([⟨0, 100, 50, 9⟩] : List HourlyReading) ≠ []) ∧
      (∃ rows peak,
        processForecast [⟨0, 100, 50, 9⟩] = .ok (rows, peak) ∧
        rows = ([⟨0, 100, 50, 9⟩] : List HourlyReading).map annotateReading ∧
        (∀ h : HourlyReading,
            (annotateReading h).hi_f =
              heat_index_f h.temp h.humidity + (if h.uvi ≥ 8 then (3.0:ℝ) else 0) ∧
            (annotateReading h).risk = (risk_from_hi (annotateReading h).hi_f).1) ∧
        ∃ i, i < rows.length ∧ peak = rows.getD i default ∧
          (∀ j, j < rows.length →
            (rows.getD j default).hi_f ≤ (rows.getD i default).hi_f) ∧
          (∀ j, j < i →
            (rows.getD j default).hi_f < (rows.getD i default).hi_f)) :=
  ⟨List.cons_ne_nil _ _, processForecast_spec _ (List.cons_ne_nil _ _)⟩

/-- C3: the empty input sequence is answered by the explicit no-data error,
not by a crash or an arbitrary default peak. -/
theorem processForecast_empty :
    processForecast [] = .error NoDataError.noData := rfl

/-- The four role keys of the `ROLE_RULES` table (src/app.py lines 78-83). -/
inductive Role : Type
  | studentAthlete
  | construction
  | delivery
  | elderly
deriving DecidableEq

/-- One entry of the role table: baseline work/rest minutes, hydration
amount per 20 minutes, and the advisory note. -/
structure RoleRule where
  work : ℤ
  rest : ℤ
  ml_per_20 : ℤ
  note : String
deriving DecidableEq

/-- `ROLE_RULES` (src/app.py lines 78-83). -/
def ROLE_RULES : Role → RoleRule
  | .studentAthlete => ⟨45, 15, 250, "Light-colored gear; buddy checks."⟩
  | .construction => ⟨40, 20, 300, "Use shade canopies; rotate tasks."⟩
  | .delivery => ⟨50, 10, 250, "Cold packs in bag; short stops in shade."⟩
  | .elderly => ⟨30, 30, 200, "Frequent sips; caregiver check."⟩

/-- `adjust_rules_for_risk` (src/app.py lines 85-95): High shortens work by
10 (floor 20) and lengthens rest by 10; Extreme shortens work by 15 (floor
15) and lengthens rest by 15; any other peak risk leaves the baseline
unchanged. -/
def adjust_rules_for_risk (role : Role) (peak_risk : RiskCategory) : RoleRule :=
  let base := ROLE_RULES role
  if peak_risk = .High then
    { base with work := max 20 (base.work - 10), rest := base.rest + 10 }
  else if peak_risk = .Extreme then
    { base with work := max 15 (base.work - 15), rest := base.rest + 15 }
  else base

/-- C7: for every role the High adjustment is work = max(20, base - 10) and
rest = base + 10, the Extreme adjustment is work = max(15, base - 15) and
rest = base + 15, Low and Moderate leave the baseline unchanged; and for
Construction (baseline 40/20) the Extreme guidance is 25 minutes work and
35 minutes rest. -/
theorem adjust_rules_spec :
    (∀ role,
      (adjust_rules_for_risk role .High).work = max 20 ((ROLE_RULES role).work - 10) ∧
      (adjust_rules_for_risk role .High).rest = (ROLE_RULES role).rest + 10 ∧
      (adjust_rules_for_risk role .Extreme).work = max 15 ((ROLE_RULES role).work - 15) ∧
      (adjust_rules_for_risk role .Extreme).rest = (ROLE_RULES role).rest + 15 ∧
      adjust_rules_for_risk role .Low = ROLE_RULES role ∧
      adjust_rules_for_risk role .Moderate = ROLE_RULES role) ∧
    (ROLE_RULES .construction).work = 40 ∧
    (ROLE_RULES .construction).rest = 20 ∧
    (adjust_rules_for_risk .construction .Extreme).work = 25 ∧
    (adjust_rules_for_risk .construction .Extreme).rest = 35 := by
  refine ⟨?_, rfl, rfl, by decide, by decide⟩
  intro role
  cases role <;> exact ⟨by decide, by decide, by decide, by decide, by decide, by decide⟩

/-- The while loop of `hydration_schedule` (src/app.py lines 99-103):
starting from `t = 20`, append `(t, ml_per_20)` and advance `t` by 20 while
`t <= total_minutes`. -/
def hydrationLoop (total_minutes ml_per_20 t : ℤ) : List (ℤ × ℤ) :=
  if h : t ≤ total_minutes then
    (t, ml_per_20) :: hydrationLoop total_minutes ml_per_20 (t + 20)
  else []
termination_by (total_minutes + 1 - t).toNat
decreasing_by
  simp_wf
  omega

/-- `hydration_schedule` (src/app.py lines 97-104). -/
def hydration_schedule (total_minutes ml_per_20 : ℤ) : List (ℤ × ℤ) :=
  hydrationLoop total_minutes ml_per_20 20

/-- The loop from any start `t` produces `(t, ml), (t+20, ml), …`, stopping
with the largest entry ≤ `total`. -/
theorem hydrationLoop_spec :
    ∀ (b : ℕ) (t total ml : ℤ), (total + 1 - t).toNat ≤ b →
      ∃ n : ℕ, hydrationLoop total ml t =
          (List.range n).map (fun k : ℕ => (t + 20 * (k:ℤ), ml)) ∧
        total < t + 20 * (n:ℤ) ∧ ∀ k : ℕ, k < n → t + 20 * (k:ℤ) ≤ total := by
  intro b
  induction b with
  | zero =>
    intro t total ml hb
    have hst : ¬ t ≤ total := by omega
    refine ⟨0, ?_, by push_cast; omega, fun k hk => absurd hk (Nat.not_lt_zero k)⟩
    unfold hydrationLoop
    rw [dif_neg hst]
    simp
  | succ b ih =>
    intro t total ml hb
    by_cases hst : t ≤ total
    · obtain ⟨n, heq, hlt, hle⟩ := ih (t + 20) total ml (by omega)
      refine ⟨n + 1, ?_, by push_cast; omega, ?_⟩
      · unfold hydrationLoop
        rw [dif_pos hst, heq, List.range_succ_eq_map, List.map_cons, List.map_map]
        refine congrArg₂ _ (by norm_num) (List.map_congr_left ?_)
        intro k _
        simp only [Function.comp]
        refine congrArg₂ _ ?_ rfl
        push_cast
        ring
      · intro k hk
        match k, hk with
        | 0, _ => simpa using hst
        | k + 1, hk =>
          have := hle k (by omega)
          push_cast at this ⊢
          omega
    · refine ⟨0, ?_, by push_cast; omega, fun k hk => absurd hk (Nat.not_lt_zero k)⟩
      unfold hydrationLoop
      rw [dif_neg hst]
      simp

/-- C8: for nonnegative duration D the schedule is exactly the reminders
(20, A), (40, A), …, (20·n, A) where 20·n is the largest multiple of 20
that is ≤ D; in particular it is empty whenever D < 20. -/
theorem hydration_schedule_spec (D A : ℤ) (hD : 0 ≤ D) :
    ∃ n : ℕ, hydration_schedule D A =
        (List.range n).map (fun k : ℕ => (20 * ((k:ℤ) + 1), A)) ∧
      20 * (n:ℤ) ≤ D ∧ D < 20 * ((n:ℤ) + 1) := by
  obtain ⟨n, heq, hlt, hle⟩ :=
    hydrationLoop_spec (D + 1 - 20).toNat 20 D A (le_refl _)
  refine ⟨n, ?_, ?_, by omega⟩
  · rw [hydration_schedule, heq]
    refine List.map_congr_left ?_
    intro k _
    refine congrArg₂ _ (by ring) rfl
  · match n with
    | 0 => simpa using hD
    | m + 1 =>
      have := hle m (by omega)
      push_cast at this ⊢
      omega

/-- C8 witness: the duration-90, amount-250 schedule of §8 of the spec. -/
theorem hydration_schedule_spec_witness :
    (0:ℤ) ≤ 90 ∧
      ∃ n : ℕ, hydration_schedule 90 250 =
          (List.range n).map (fun k : ℕ => (20 * ((k:ℤ) + 1), 250)) ∧
        20 * (n:ℤ) ≤ 90 ∧ (90:ℤ) < 20 * ((n:ℤ) + 1) :=
  ⟨by norm_num, hydration_schedule_spec 90 250 (by norm_num)⟩

/-- C9 (amended): `hydration_schedule` performs no input validation; for
any duration below 20 — negative durations included — it silently returns
the empty schedule as a normal result rather than failing with an
invalid-argument signal. -/
theorem hydration_schedule_no_validation (D A : ℤ) (hD : D < 20) :
    hydration_schedule D A = [] := by
  rw [hydration_schedule]
  unfold hydrationLoop
  rw [dif_neg (by omega)]

/-- C9 witness: the negative duration -7 yields the ordinary empty list. -/
theorem hydration_schedule_no_validation_witness :
    (-7:ℤ) < 20 ∧ hydration_schedule (-7) 300 = [] :=
  ⟨by norm_num, hydration_schedule_no_validation (-7) 300 (by norm_num)⟩

/-- C9 counterexample: at the out-of-range duration -5 the function does
not fail fast; it returns the normal empty schedule, indistinguishable from
the in-range result for a short session. -/
theorem hydration_schedule_negative_cex :
    hydration_schedule (-5) 250 = [] ∧
      hydration_schedule (-5) 250 = hydration_schedule 15 250 := by
  have h1 : hydration_schedule (-5) 250 = [] := by
    rw [hydration_schedule]
    unfold hydrationLoop
    rw [dif_neg (by norm_num)]
  have h2 : hydration_schedule 15 250 = [] := by
    rw [hydration_schedule]
    unfold hydrationLoop
    rw [dif_neg (by norm_num)]
  exact ⟨h1, h1.trans h2.symm⟩

/-- Selection predicate of the safe-window scan (src/app.py line 222):
`rw["risk"] in ("Low", "Moderate")`. -/
def isSafe (r : Row) : Bool :=
  decide (r.risk = RiskCategory.Low ∨ r.risk = RiskCategory.Moderate)

/-- `good_idxs` (src/app.py line 222): the indices of the Low/Moderate rows
in increasing order. -/
def goodIdxs (rows : List Row) : List ℕ :=
  (List.range rows.length).filter fun i => isSafe (rows.getD i default)

/-- The inner while loop of the safe-window merge (src/app.py lines
228-230): with the current group running from `s` to `c`, keep extending
while the next selected index is `c + 1`. -/
def groupRunsGo (s c : ℕ) : List ℕ → List (ℕ × ℕ)
  | [] => [(s, c)]
  | j :: rest =>
      if j = c + 1 then groupRunsGo s j rest
      else (s, c) :: groupRunsGo j j rest

/-- The outer while loop of the safe-window merge (src/app.py lines
224-232): each iteration opens a group at the next unconsumed index. -/
def groupRuns : List ℕ → List (ℕ × ℕ)
  | [] => []
  | i :: rest => groupRunsGo i i rest

/-- The safe-window merge (src/app.py lines 222-232): group the selected
indices into runs and read off the first and last timestamps of each. -/
def mergeSafeWindows (rows : List Row) : List (ℤ × ℤ) :=
  (groupRuns (goodIdxs rows)).map fun p =>
    ((rows.getD p.1 default).ts, (rows.getD p.2 default).ts)

/-- End of the run the inner loop consumes starting from `c`, paired with
the unconsumed remainder of the index list. -/
def runEnd (c : ℕ) : List ℕ → ℕ × List ℕ
  | [] => (c, [])
  | j :: rest => if j = c + 1 then runEnd j rest else (c, j :: rest)

/-- On a strictly increasing list whose head bound is `c`, `runEnd`
consumes exactly the indices `c+1, …, e` and leaves a remainder whose
members all exceed `e + 1`. -/
theorem runEnd_spec :
    ∀ (l : List ℕ) (c : ℕ), (∀ x ∈ l, c < x) → l.Pairwise (· < ·) →
      c ≤ (runEnd c l).1 ∧
      l = List.range' (c + 1) ((runEnd c l).1 - c) ++ (runEnd c l).2 ∧
      (∀ x ∈ (runEnd c l).2, (runEnd c l).1 + 1 < x) ∧
      (runEnd c l).2.Pairwise (· < ·) := by
  intro l
  induction l with
  | nil =>
    intro c _ _
    refine ⟨le_refl c, ?_, ?_, ?_⟩ <;> simp [runEnd]
  | cons j rest ih =>
    intro c hc hp
    have hcj : c < j := hc j (List.mem_cons_self j rest)
    have hjr : ∀ x ∈ rest, j < x := (List.pairwise_cons.mp hp).1
    have hpr : rest.Pairwise (· < ·) := (List.pairwise_cons.mp hp).2
    by_cases hj : j = c + 1
    · have hre : runEnd c (j :: rest) = runEnd j rest := by
        simp [runEnd, hj]
      obtain ⟨h1, h2, h3, h4⟩ := ih j hjr hpr
      rw [hre]
      refine ⟨by omega, ?_, h3, h4⟩
      have hsub : (runEnd j rest).1 - c = ((runEnd j rest).1 - j) + 1 := by omega
      rw [hsub, List.range'_succ, List.cons_append]
      subst hj
      exact congrArg (List.cons (c + 1)) (by simpa using h2)
    · have hre : runEnd c (j :: rest) = (c, j :: rest) := by
        simp [runEnd, hj]
      rw [hre]
      refine ⟨le_refl c, by simp, ?_, hp⟩
      intro x hx
      rcases List.mem_cons.mp hx with rfl | h
      · omega
      · have := hjr x h
        omega

/-- `groupRunsGo` yields the group opened at `s` closed at the end of the
current run, followed by the groups of the remainder. -/
theorem groupRunsGo_eq :
    ∀ (l : List ℕ) (s c : ℕ),
      groupRunsGo s c l = (s, (runEnd c l).1) :: groupRuns (runEnd c l).2 := by
  intro l
  induction l with
  | nil =>
    intro s c
    simp [groupRunsGo, runEnd, groupRuns]
  | cons j rest ih =>
    intro s c
    by_cases hj : j = c + 1
    · rw [show groupRunsGo s c (j :: rest) = groupRunsGo s j rest by
        simp [groupRunsGo, hj]]
      rw [show runEnd c (j :: rest) = runEnd j rest by simp [runEnd, hj]]
      exact ih s j
    · rw [show groupRunsGo s c (j :: rest) = (s, c) :: groupRunsGo j j rest by
        simp [groupRunsGo, hj]]
      rw [show runEnd c (j :: rest) = (c, j :: rest) by simp [runEnd, hj]]
      rfl

/-- Unfolding of `groupRuns` on a cons cell through `runEnd`. -/
theorem groupRuns_cons (i : ℕ) (rest : List ℕ) :
    groupRuns (i :: rest) = (i, (runEnd i rest).1) :: groupRuns (runEnd i rest).2 :=
  groupRunsGo_eq rest i i

/-- `runEnd_spec` with the result of `runEnd` named. -/
theorem runEnd_spec_eq (l : List ℕ) (c e0 : ℕ) (rem : List ℕ)
    (hre : runEnd c l = (e0, rem))
    (hc : ∀ x ∈ l, c < x) (hp : l.Pairwise (· < ·)) :
    c ≤ e0 ∧ l = List.range' (c + 1) (e0 - c) ++ rem ∧
      (∀ x ∈ rem, e0 + 1 < x) ∧ rem.Pairwise (· < ·) := by
  have h := runEnd_spec l c hc hp
  rw [hre] at h
  exact h

/-- No group comes out of the empty index list, and none is asked for. -/
theorem groupRuns_nil_iff (s e : ℕ) :
    (s, e) ∈ groupRuns [] ↔
      (s ≤ e ∧ (∀ k, s ≤ k → k ≤ e → k ∈ ([] : List ℕ)) ∧
        (e + 1) ∉ ([] : List ℕ) ∧ ∀ p ∈ ([] : List ℕ), p + 1 ≠ s) := by
  constructor
  · intro h
    exact absurd h (List.not_mem_nil _)
  · rintro ⟨h1, h2, _, _⟩
    exact absurd (h2 s (le_refl s) h1) (List.not_mem_nil s)

/-- On a strictly increasing index list, the pairs `groupRuns` produces are
exactly the maximal runs of consecutive members: every index between the
endpoints is a member, the successor of the right endpoint is not, and the
predecessor of the left endpoint is not. -/
theorem groupRuns_mem :
    ∀ (n : ℕ) (l : List ℕ), l.length ≤ n → l.Pairwise (· < ·) →
      ∀ s e : ℕ, ((s, e) ∈ groupRuns l ↔
        (s ≤ e ∧ (∀ k, s ≤ k → k ≤ e → k ∈ l) ∧
          (e + 1) ∉ l ∧ ∀ p ∈ l, p + 1 ≠ s)) := by
  intro n
  induction n with
  | zero =>
    intro l hl _ s e
    have hnil : l = [] := List.eq_nil_of_length_eq_zero (Nat.le_zero.mp hl)
    subst hnil
    exact groupRuns_nil_iff s e
  | succ n ih =>
    intro l hl hp s e
    cases l with
    | nil => exact groupRuns_nil_iff s e
    | cons i rest =>
      have hjr : ∀ x ∈ rest, i < x := (List.pairwise_cons.mp hp).1
      have hpr : rest.Pairwise (· < ·) := (List.pairwise_cons.mp hp).2
      obtain ⟨e0, rem, hre⟩ : ∃ p q, runEnd i rest = (p, q) := ⟨_, _, rfl⟩
      obtain ⟨hce, hdec, hgt, hprw⟩ := runEnd_spec_eq rest i e0 rem hre hjr hpr
      have hlen : rem.length ≤ n := by
        have h1 := congrArg List.length hdec
        simp only [List.length_append, List.length_range'] at h1
        have h2 : rest.length + 1 ≤ n + 1 := by simpa using hl
        omega
      have hmem : ∀ k : ℕ, (k ∈ i :: rest ↔
          (k = i ∨ (i + 1 ≤ k ∧ k ≤ e0) ∨ k ∈ rem)) := by
        intro k
        rw [List.mem_cons, hdec, List.mem_append]
        constructor
        · rintro (rfl | hk | hk)
          · exact Or.inl rfl
          · obtain ⟨m, hm, rfl⟩ := List.mem_range'.mp hk
            exact Or.inr (Or.inl ⟨by omega, by omega⟩)
          · exact Or.inr (Or.inr hk)
        · rintro (rfl | ⟨hk1, hk2⟩ | hk)
          · exact Or.inl rfl
          · exact Or.inr (Or.inl (List.mem_range'.mpr ⟨k - (i + 1), by omega, by omega⟩))
          · exact Or.inr (Or.inr hk)
      have he0n : (e0 + 1) ∉ i :: rest := by
        intro hcon
        rcases (hmem _).mp hcon with h | ⟨ha, hb⟩ | h
        · omega
        · omega
        · have := hgt _ h
          omega
      have hcons : groupRuns (i :: rest) = (i, e0) :: groupRuns rem := by
        rw [groupRuns_cons, hre]
      rw [hcons, List.mem_cons]
      constructor
      · rintro (heq | hmem2)
        · rw [Prod.mk.injEq] at heq
          obtain ⟨rfl, rfl⟩ := heq
          refine ⟨hce, ?_, he0n, ?_⟩
          · intro k hk1 hk2
            by_cases hki : k = s
            · exact (hmem k).mpr (Or.inl hki)
            · exact (hmem k).mpr (Or.inr (Or.inl ⟨by omega, hk2⟩))
          · intro p hpmem
            rcases (hmem p).mp hpmem with rfl | ⟨ha, hb⟩ | h
            · omega
            · omega
            · have := hgt _ h
              omega
        · obtain ⟨h1, h2, h3, h4⟩ := (ih rem hlen hprw s e).mp hmem2
          have hs : s ∈ rem := h2 s (le_refl s) h1
          have hsgt : e0 + 1 < s := hgt s hs
          refine ⟨h1, ?_, ?_, ?_⟩
          · intro k hk1 hk2
            exact (hmem k).mpr (Or.inr (Or.inr (h2 k hk1 hk2)))
          · intro hcon
            rcases (hmem _).mp hcon with h | ⟨ha, hb⟩ | h
            · omega
            · omega
            · exact h3 h
          · intro p hpmem
            rcases (hmem p).mp hpmem with rfl | ⟨ha, hb⟩ | h
            · omega
            · omega
            · exact h4 p h
      · rintro ⟨h1, h2, h3, h4⟩
        have hs := h2 s (le_refl s) h1
        rcases (hmem s).mp hs with rfl | ⟨ha, hb⟩ | hsr
        · have hee : e = e0 := by
            by_contra hne
            rcases Nat.lt_or_ge e e0 with hlt | hge
            · exact h3 ((hmem (e + 1)).mpr (Or.inr (Or.inl ⟨by omega, by omega⟩)))
            · exact he0n (h2 (e0 + 1) (by omega) (by omega))
          subst hee
          exact Or.inl rfl
        · exfalso
          have hmem' : s - 1 ∈ i :: rest := by
            by_cases hsi : s - 1 = i
            · exact (hmem _).mpr (Or.inl hsi)
            · exact (hmem _).mpr (Or.inr (Or.inl ⟨by omega, by omega⟩))
          exact h4 (s - 1) hmem' (by omega)
        · have hks : e0 + 1 < s := hgt s hsr
          refine Or.inr ((ih rem hlen hprw s e).mpr ⟨h1, ?_, ?_, ?_⟩)
          · intro k hk1 hk2
            rcases (hmem k).mp (h2 k hk1 hk2) with rfl | ⟨ha, hb⟩ | h
            · exact absurd hk1 (by omega)
            · exact absurd hb (by omega)
            · exact h
          · intro hcon
            exact h3 ((hmem _).mpr (Or.inr (Or.inr hcon)))
          · intro p hp2
            exact h4 p ((hmem _).mpr (Or.inr (Or.inr hp2)))

/-- Successive groups are separated by a gap of at least one unselected
index: the right endpoint of an earlier group plus one is strictly below
the left endpoint of any later group. -/
theorem groupRuns_pairwise :
    ∀ (n : ℕ) (l : List ℕ), l.length ≤ n → l.Pairwise (· < ·) →
      (groupRuns l).Pairwise (fun p q => p.2 + 1 < q.1) := by
  intro n
  induction n with
  | zero =>
    intro l hl _
    have hnil : l = [] := List.eq_nil_of_length_eq_zero (Nat.le_zero.mp hl)
    subst hnil
    exact List.Pairwise.nil
  | succ n ih =>
    intro l hl hp
    cases l with
    | nil => exact List.Pairwise.nil
    | cons i rest =>
      have hjr : ∀ x ∈ rest, i < x := (List.pairwise_cons.mp hp).1
      have hpr : rest.Pairwise (· < ·) := (List.pairwise_cons.mp hp).2
      obtain ⟨e0, rem, hre⟩ : ∃ p q, runEnd i rest = (p, q) := ⟨_, _, rfl⟩
      obtain ⟨hce, hdec, hgt, hprw⟩ := runEnd_spec_eq rest i e0 rem hre hjr hpr
      have hlen : rem.length ≤ n := by
        have h1 := congrArg List.length hdec
        simp only [List.length_append, List.length_range'] at h1
        have h2 : rest.length + 1 ≤ n + 1 := by simpa using hl
        omega
      have hcons : groupRuns (i :: rest) = (i, e0) :: groupRuns rem := by
        rw [groupRuns_cons, hre]
      rw [hcons]
      refine List.pairwise_cons.mpr ⟨?_, ih rem hlen hprw⟩
      intro q hq
      obtain ⟨h1, h2, _, _⟩ := (groupRuns_mem n rem hlen hprw q.1 q.2).mp (by simpa using hq)
      have hq1 : q.1 ∈ rem := h2 q.1 (le_refl q.1) h1
      exact hgt q.1 hq1

/-- Index `i` selects a Low/Moderate row of `rows`. -/
def goodAt (rows : List Row) (i : ℕ) : Prop :=
  i < rows.length ∧ isSafe (rows.getD i default) = true

/-- `(s, e)` is a maximal run of rows with risk Low or Moderate that are
consecutive in the original sequence: every index between `s` and `e`
qualifies, and the run extends neither left nor right. -/
def IsMaxRun (rows : List Row) (s e : ℕ) : Prop :=
  s ≤ e ∧ (∀ k, s ≤ k → k ≤ e → goodAt rows k) ∧
    ¬ goodAt rows (e + 1) ∧ ∀ p, p + 1 = s → ¬ goodAt rows p

/-- Membership in `good_idxs`. -/
theorem goodIdxs_mem (rows : List Row) (k : ℕ) :
    k ∈ goodIdxs rows ↔ goodAt rows k := by
  simp [goodIdxs, List.mem_filter, List.mem_range, goodAt]

/-- `good_idxs` is strictly increasing. -/
theorem goodIdxs_pairwise (rows : List Row) :
    (goodIdxs rows).Pairwise (· < ·) :=
  List.Pairwise.filter _ (List.sorted_lt_range rows.length)

/-- C4 (amended): for every annotated-row sequence with strictly increasing
timestamps, the merged safe windows are exactly one window per maximal run
of Low/Moderate rows consecutive in the original sequence, each spanning
the run's first and last timestamps; every window satisfies start ≤ end;
the windows are listed in order and pairwise non-overlapping; and when no
row qualifies the result is empty.  (With merely nondecreasing timestamps
two windows can coincide and overlap.) -/
theorem mergeSafeWindows_spec (rows : List Row)
    (hts : rows.Pairwise (fun a b : Row => a.ts < b.ts)) :
    (∀ a b : ℤ, ((a, b) ∈ mergeSafeWindows rows ↔
        ∃ s e : ℕ, IsMaxRun rows s e ∧
          a = (rows.getD s default).ts ∧ b = (rows.getD e default).ts)) ∧
    (∀ w ∈ mergeSafeWindows rows, w.1 ≤ w.2) ∧
    (mergeSafeWindows rows).Pairwise (fun p q : ℤ × ℤ => p.2 < q.1) ∧
    ((∀ i, i < rows.length → isSafe (rows.getD i default) = false) →
      mergeSafeWindows rows = []) := by
  have hspec : ∀ s e : ℕ, ((s, e) ∈ groupRuns (goodIdxs rows) ↔ IsMaxRun rows s e) := by
    intro s e
    rw [groupRuns_mem (goodIdxs rows).length (goodIdxs rows) (le_refl _)
      (goodIdxs_pairwise rows) s e]
    unfold IsMaxRun
    constructor
    · rintro ⟨h1, h2, h3, h4⟩
      exact ⟨h1, fun k hk1 hk2 => (goodIdxs_mem rows k).mp (h2 k hk1 hk2),
        fun hcon => h3 ((goodIdxs_mem rows _).mpr hcon),
        fun p hp hcon => h4 p ((goodIdxs_mem rows p).mpr hcon) hp⟩
    · rintro ⟨h1, h2, h3, h4⟩
      exact ⟨h1, fun k hk1 hk2 => (goodIdxs_mem rows k).mpr (h2 k hk1 hk2),
        fun hcon => h3 ((goodIdxs_mem rows _).mp hcon),
        fun p hp hpe => h4 p hpe ((goodIdxs_mem rows p).mp hp)⟩
  have hts_mono : ∀ a b : ℕ, a < b → b < rows.length →
      (rows.getD a default).ts < (rows.getD b default).ts := by
    intro a b hab hb
    have ha : a < rows.length := lt_trans hab hb
    rw [List.getD_eq_getElem rows default ha, List.getD_eq_getElem rows default hb]
    exact List.pairwise_iff_getElem.mp hts a b ha hb hab
  refine ⟨?_, ?_, ?_, ?_⟩
  · intro a b
    rw [mergeSafeWindows, List.mem_map]
    constructor
    · rintro ⟨p, hp, hpe⟩
      rw [Prod.mk.injEq] at hpe
      exact ⟨p.1, p.2, (hspec p.1 p.2).mp (by simpa using hp),
        hpe.1.symm, hpe.2.symm⟩
    · rintro ⟨s, e, hrun, rfl, rfl⟩
      exact ⟨(s, e), (hspec s e).mpr hrun, rfl⟩
  · intro w hw
    rw [mergeSafeWindows, List.mem_map] at hw
    obtain ⟨p, hp, rfl⟩ := hw
    obtain ⟨h1, h2, _, _⟩ := (hspec p.1 p.2).mp (by simpa using hp)
    have hge : goodAt rows p.2 := h2 p.2 h1 (le_refl _)
    rcases Nat.eq_or_lt_of_le h1 with heq | hlt
    · exact le_of_eq (by rw [heq])
    · exact le_of_lt (hts_mono p.1 p.2 hlt hge.1)
  · rw [mergeSafeWindows]
    refine List.pairwise_map.mpr ?_
    refine List.Pairwise.imp_of_mem ?_
      (groupRuns_pairwise (goodIdxs rows).length (goodIdxs rows) (le_refl _)
        (goodIdxs_pairwise rows))
    intro p q hp hq hlt
    obtain ⟨h1, h2, _, _⟩ := (hspec q.1 q.2).mp (by simpa using hq)
    have hq1 : goodAt rows q.1 := h2 q.1 (le_refl _) h1
    exact hts_mono p.2 q.1 (by omega) hq1.1
  · intro hall
    have hempty : goodIdxs rows = [] := by
      rw [goodIdxs]
      refine List.filter_eq_nil_iff.mpr ?_
      intro k hk
      rw [List.mem_range] at hk
      simp only [hall k hk]
      exact Bool.false_ne_true
    rw [mergeSafeWindows, hempty]
    rfl

/-- An annotated row with risk Low at timestamp `t`. -/
def lowRowAt (t : ℤ) : Row :=
  { ts := t, temp_f := 70, rh := 30, uvi := 1, hi_f := 70,
    risk := .Low, emoji := "🟢" }

/-- An annotated row with risk High at timestamp `t`. -/
def highRowAt (t : ℤ) : Row :=
  { ts := t, temp_f := 105, rh := 40, uvi := 9, hi_f := 120,
    risk := .High, emoji := "🟠" }

/-- C4 witness: a single Low row at timestamp 5, whose strictly increasing
timestamp sequence satisfies the amended hypothesis. -/
theorem mergeSafeWindows_spec_witness :
    List.Pairwise (fun a b : Row => a.ts < b.ts) [lowRowAt 5] ∧
      ((∀ a b : ℤ, ((a, b) ∈ mergeSafeWindows [lowRowAt 5] ↔
          ∃ s e : ℕ, IsMaxRun [lowRowAt 5] s e ∧
            a = (([lowRowAt 5] : List Row).getD s default).ts ∧
            b = (([lowRowAt 5] : List Row).getD e default).ts)) ∧
        (∀ w ∈ mergeSafeWindows [lowRowAt 5], w.1 ≤ w.2) ∧
        (mergeSafeWindows [lowRowAt 5]).Pairwise (fun p q : ℤ × ℤ => p.2 < q.1) ∧
        ((∀ i, i < ([lowRowAt 5] : List Row).length →
            isSafe (([lowRowAt 5] : List Row).getD i default) = false) →
          mergeSafeWindows [lowRowAt 5] = [])) :=
  ⟨by simp, mergeSafeWindows_spec [lowRowAt 5] (by simp)⟩

/-- C4 counterexample: with merely nondecreasing timestamps — three rows
all at timestamp 0 with risks Low, High, Low — the merge returns the two
windows [0, 0] and [0, 0]; as closed intervals they intersect, so the
windows are not pairwise non-overlapping. -/
theorem mergeSafeWindows_cex :
    List.Pairwise (fun a b : Row => a.ts ≤ b.ts)
        [lowRowAt 0, highRowAt 0, lowRowAt 0] ∧
      mergeSafeWindows [lowRowAt 0, highRowAt 0, lowRowAt 0] = [(0, 0), (0, 0)] ∧
      ¬ (mergeSafeWindows [lowRowAt 0, highRowAt 0, lowRowAt 0]).Pairwise
          (fun p q : ℤ × ℤ => p.2 < q.1 ∨ q.2 < p.1) := by
  refine ⟨?_, rfl, ?_⟩
  · simp [List.pairwise_cons, lowRowAt, highRowAt]
  · intro hcon
    rw [show mergeSafeWindows [lowRowAt 0, highRowAt 0, lowRowAt 0]
        = [(0, 0), (0, 0)] from rfl] at hcon
    have h := (List.pairwise_cons.mp hcon).1 (0, 0) (by simp)
    rcases h with h | h <;> exact absurd h (by norm_num)

end HeatGuard
